import Mathlib

/-!
Shallow embedding of the task-orchestration subsystem of the repository
(`src/services/task_manager.py` with the status enum from
`src/models/schemas.py`).

Modelling conventions:
* `uuid.uuid4()` is modelled as a fresh-name supply (a `Nat` counter held in
  the manager state); the code never checks for collisions, it relies on
  uuid freshness, which the counter makes explicit.
* timestamps (`datetime.now(timezone.utc)`) are abstract integer seconds.
* the job table `self._tasks : Dict[str, TaskInfo]` is an association list
  `List (Nat × TaskInfo)`; all real executions keep its keys nodup.
* Python float arithmetic in the progress callback
  (`20 + int(((current_step + 1) / max(1, total_steps)) * 70)`) is embedded
  as exact natural division; `int` on a non-negative float is a floor, and
  the bound/monotonicity facts proved about it are insensitive to the
  at-most-one-ulp difference between float and exact division.
* every embedded operation is a total Lean function: the Python methods
  only perform dictionary reads/writes under a lock and cannot raise.
-/

namespace RapidGen

/-- Task lifecycle states, from `models/schemas.py` `TaskStatus`. -/
inductive TaskStatus : Type
  | pending
  | inProgress
  | completed
  | failed
deriving DecidableEq, Repr

/-- The string payload of each enum member (`PENDING = "PENDING"`, ...). -/
def TaskStatus.value : TaskStatus → String
  | .pending => "PENDING"
  | .inProgress => "IN_PROGRESS"
  | .completed => "COMPLETED"
  | .failed => "FAILED"

/-- One job record, from `TaskInfo.__init__`. -/
structure TaskInfo : Type where
  task_id : Nat
  request : Nat
  status : TaskStatus
  progress : Nat
  result : Option String
  error : Option String
  created_at : Int
  started_at : Option Int
  completed_at : Option Int
deriving DecidableEq, Repr

/-- The record `TaskInfo.__init__` builds: `PENDING`, progress 0, no
result, no error, `created_at` stamped, no `started_at`/`completed_at`. -/
def mkTaskInfo (id req : Nat) (now : Int) : TaskInfo :=
  { task_id := id
    request := req
    status := .pending
    progress := 0
    result := none
    error := none
    created_at := now
    started_at := none
    completed_at := none }

/-- The job table `self._tasks`. -/
abbrev Table := List (Nat × TaskInfo)

/-- `self._tasks.get(task_id)`. -/
def lookupTask : Table → Nat → Option TaskInfo
  | [], _ => none
  | (i, ti) :: rest, id => if i = id then some ti else lookupTask rest id

/-- In-place mutation of the record stored under `id` (the Python methods
look the record up and assign its attributes under the lock; a missing id
is a no-op). -/
def updateTask : Table → Nat → (TaskInfo → TaskInfo) → Table
  | [], _, _ => []
  | (i, ti) :: rest, id, f => (i, if i = id then f ti else ti) :: updateTask rest id f

/-- `TaskManager.get_task_status`. -/
def get_task_status (tbl : Table) (id : Nat) : Option TaskInfo :=
  lookupTask tbl id

/-- `TaskManager._update_task_status`: sets `status` and `progress`. -/
def update_task_status (tbl : Table) (id : Nat) (st : TaskStatus) (pr : Nat) : Table :=
  updateTask tbl id fun ti => { ti with status := st, progress := pr }

/-- `task_info.started_at = datetime.now(timezone.utc)` (line 129). -/
def set_started_at (tbl : Table) (id : Nat) (t : Int) : Table :=
  updateTask tbl id fun ti => { ti with started_at := some t }

/-- `TaskManager._update_task_progress`: `progress = min(progress, 100)`. -/
def update_task_progress (tbl : Table) (id : Nat) (pr : Nat) : Table :=
  updateTask tbl id fun ti => { ti with progress := min pr 100 }

/-- `TaskManager._complete_task`. -/
def complete_task (tbl : Table) (id : Nat) (result : String) (t : Int) : Table :=
  updateTask tbl id fun ti =>
    { ti with status := .completed, progress := 100, result := some result,
              completed_at := some t }

/-- `TaskManager._fail_task`. -/
def fail_task (tbl : Table) (id : Nat) (error_message : String) (t : Int) : Table :=
  updateTask tbl id fun ti =>
    { ti with status := .failed, error := some error_message, completed_at := some t }

/-- The removal test of `cleanup_old_tasks`:
`status in [COMPLETED, FAILED] and created_at.timestamp() < cutoff_time`. -/
def should_remove (cutoff : Int) (ti : TaskInfo) : Bool :=
  decide ((ti.status = .completed ∨ ti.status = .failed) ∧ ti.created_at < cutoff)

/-- `TaskManager.cleanup_old_tasks` with `cutoff_time = now - max_age_hours
* 3600`; returns the new table and the removed count (`removed_count` is
incremented once per deleted record). -/
def cleanup_old_tasks (tbl : Table) (now max_age_hours : Int) : Table × Nat :=
  ((tbl.filter fun p => !should_remove (now - max_age_hours * 3600) p.2),
   (tbl.filter fun p => should_remove (now - max_age_hours * 3600) p.2).length)

/-- Number of records currently in status `s` (the counting loop of
`get_task_count`). -/
def count_status (tbl : Table) (s : TaskStatus) : Nat :=
  (tbl.filter fun p => decide (p.2.status = s)).length

/-- `TaskManager.get_task_count`: one entry per enum value plus `total`. -/
def get_task_count (tbl : Table) : List (String × Nat) :=
  [(TaskStatus.pending.value, count_status tbl .pending),
   (TaskStatus.inProgress.value, count_status tbl .inProgress),
   (TaskStatus.completed.value, count_status tbl .completed),
   (TaskStatus.failed.value, count_status tbl .failed),
   ("total", tbl.length)]

/-- The rescaling in `progress_callback` (lines 132-136):
`progress = 20 + int(((current_step + 1) / max(1, total_steps)) * 70)`
followed by `progress = min(progress, 90)`. -/
def rescale_progress (current_step total_steps : Nat) : Nat :=
  min (20 + (current_step + 1) * 70 / max 1 total_steps) 90

/-- `error_msg = f"タスク実行エラー: {str(e)}"` (line 155). -/
def errorMessage (e : String) : String :=
  "タスク実行エラー: " ++ e

/-! ## The execution driver `TaskManager._execute_task`

The driver's effect on the job table is a sequence of atomic table
mutations (each one is a Python method body executed under `self._lock`).
We reify each mutation as a `DriverOp`:
* `setRunning` — `_update_task_status(task_id, IN_PROGRESS, 0)` together
  with the `started_at` stamp on the next line;
* `setProg p` — `_update_task_progress(task_id, p)`;
* `complete r` — `_complete_task(task_id, r)`;
* `failJob e` — `_fail_task(task_id, e)`.
-/

/-- One atomic table mutation performed by the driver. -/
inductive DriverOp : Type
  | setRunning
  | setProg (p : Nat)
  | complete (r : String)
  | failJob (e : String)
deriving DecidableEq, Repr

/-- Whether the op puts the record into a terminal state. -/
def DriverOp.isTerminalOp : DriverOp → Bool
  | .complete _ => true
  | .failJob _ => true
  | _ => false

/-- The table-level effect of one driver op on job `id` at time `t`. -/
def applyOp (tbl : Table) (id : Nat) (t : Int) : DriverOp → Table
  | .setRunning => set_started_at (update_task_status tbl id .inProgress 0) id t
  | .setProg p => update_task_progress tbl id p
  | .complete r => complete_task tbl id r t
  | .failJob e => fail_task tbl id e t

/-- The record-level effect of one driver op (what the op does to the one
record stored under the driven id). -/
def applyOpInfo (t : Int) : DriverOp → TaskInfo → TaskInfo
  | .setRunning, ti => { ti with status := .inProgress, progress := 0, started_at := some t }
  | .setProg p, ti => { ti with progress := min p 100 }
  | .complete r, ti =>
      { ti with status := .completed, progress := 100, result := some r,
                completed_at := some t }
  | .failJob e, ti =>
      { ti with status := .failed, error := some e, completed_at := some t }

/-- The progress writes issued by the backend's callback invocations:
each call `(current_step, total_steps)` becomes one
`_update_task_progress` with the rescaled value. -/
def callback_ops (cbs : List (Nat × Nat)) : List DriverOp :=
  cbs.map fun c => .setProg (rescale_progress c.1 c.2)

/-- The driver's op sequence when the backend returns `r` after invoking
the callback on `cbs` (lines 128-151): running, 10%, callbacks, 95%,
complete. -/
def success_ops (cbs : List (Nat × Nat)) (r : String) : List DriverOp :=
  .setRunning :: .setProg 10 :: (callback_ops cbs ++ [.setProg 95, .complete r])

/-- The driver's op sequence when the backend raises `e` after invoking
the callback on `cbs`: the `except` branch runs `_fail_task` with the
formatted message; the 95% update and `_complete_task` are skipped. -/
def failure_ops (cbs : List (Nat × Nat)) (e : String) : List DriverOp :=
  .setRunning :: .setProg 10 :: (callback_ops cbs ++ [.failJob (errorMessage e)])

/-- The driver's op sequence for a given backend behaviour. -/
def driver_ops (cbs : List (Nat × Nat)) (outcome : Except String String) : List DriverOp :=
  match outcome with
  | .ok r => success_ops cbs r
  | .error e => failure_ops cbs e

/-- `TaskManager._execute_task` run to completion on one thread: the
initial lookup (returning unchanged when the id is unknown), then the
op sequence determined by the backend behaviour.  The Python driver
catches every exception of its `try` block, so as a state transformer it
is total — which this embedding makes literal. -/
def execute_task (tbl : Table) (id : Nat) (cbs : List (Nat × Nat))
    (outcome : Except String String) (t : Int) : Table :=
  match lookupTask tbl id with
  | none => tbl
  | some _ => (driver_ops cbs outcome).foldl (fun acc op => applyOp acc id t op) tbl

/-- The successive values of the driven record's `progress` field: the
value at creation followed by the value after each driver op. -/
def taskProgressTrace (ti : TaskInfo) (t : Int) (ops : List DriverOp) : List Nat :=
  (List.scanl (fun ti op => applyOpInfo t op ti) ti ops).map TaskInfo.progress

/-! ## Whole-system model

`TaskManager` submits each created job to a
`ThreadPoolExecutor(max_workers=2)`.  The executor's documented contract:
a submitted callable is queued, starts only when one of the 2 worker
threads is free, and submission never blocks.  The system state below
carries the job table, the queued and the currently-running drivers
(each with its remaining op sequence), and the fresh-id counter; the step
relation interleaves job creation, the dispatch rule with the capacity-2
bound, individual driver ops, driver completion, and sweeps. -/

/-- A well-formed driver trace: exceptions may abort the `try` block
after any front segment of the mutation sequence, so a trace is either a
full success sequence or a front segment of the non-terminal mutations
followed by
the `_fail_task` write. -/
def IsDriverTrace (ops : List DriverOp) : Prop :=
  (∃ cbs r, ops = success_ops cbs r) ∨
  (∃ cbs e p q,
     p ++ q = DriverOp.setRunning :: DriverOp.setProg 10 ::
       (callback_ops cbs ++ [DriverOp.setProg 95]) ∧
     ops = p ++ [DriverOp.failJob (errorMessage e)])

/-- Remaining driver ops always end in exactly one terminal op. -/
inductive GoodOps : List DriverOp → Prop
  | completeLast (r : String) : GoodOps [DriverOp.complete r]
  | failLast (e : String) : GoodOps [DriverOp.failJob e]
  | step (op : DriverOp) (h : op.isTerminalOp = false) {rest : List DriverOp}
      (hr : GoodOps rest) : GoodOps (op :: rest)

/-- Whole-system state: job table, queued drivers, running drivers
(with their remaining ops), and the fresh-id supply. -/
structure Sys : Type where
  table : Table
  queued : List (Nat × List DriverOp)
  running : List (Nat × List DriverOp)
  nextId : Nat

/-- `TaskManager.create_task`: allocate a fresh id, insert the `PENDING`
record, submit the driver to the executor queue, return the id.  The
execution itself does not run here. -/
def create_task (s : Sys) (req : Nat) (t : Int) (ops : List DriverOp) : Nat × Sys :=
  (s.nextId,
   { table := (s.nextId, mkTaskInfo s.nextId req t) :: s.table
     queued := s.queued ++ [(s.nextId, ops)]
     running := s.running
     nextId := s.nextId + 1 })

/-- One step of the whole system: any interleaving of `create_task`,
executor dispatch (capacity 2), a single driver mutation, driver exit,
and `cleanup_old_tasks`. -/
inductive Step : Sys → Sys → Prop
  | create (s : Sys) (req : Nat) (t : Int) (ops : List DriverOp)
      (h : IsDriverTrace ops) :
      Step s (create_task s req t ops).2
  | dispatch (s : Sys) (id : Nat) (ops : List DriverOp)
      (rest : List (Nat × List DriverOp))
      (hq : s.queued = (id, ops) :: rest) (hcap : s.running.length < 2) :
      Step s { s with queued := rest, running := s.running ++ [(id, ops)] }
  | exec (s : Sys) (id : Nat) (op : DriverOp) (rest : List DriverOp)
      (pre post : List (Nat × List DriverOp)) (t : Int)
      (hr : s.running = pre ++ (id, op :: rest) :: post) :
      Step s { s with table := applyOp s.table id t op,
                      running := pre ++ (id, rest) :: post }
  | finish (s : Sys) (id : Nat) (pre post : List (Nat × List DriverOp))
      (hr : s.running = pre ++ (id, ([] : List DriverOp)) :: post) :
      Step s { s with running := pre ++ post }
  | cleanup (s : Sys) (now max_age : Int) :
      Step s { s with table := (cleanup_old_tasks s.table now max_age).1 }

/-- The freshly started process: empty table, nothing queued or running. -/
def initSys : Sys :=
  { table := [], queued := [], running := [], nextId := 0 }

/-- States the system can reach by any interleaving. -/
def Reachable (s : Sys) : Prop :=
  Relation.ReflTransGen Step initSys s

/-- The terminal-state/result/error pairing invariant on one record. -/
def StatusOk (ti : TaskInfo) : Prop :=
  match ti.status with
  | .completed => ti.result ≠ none ∧ ti.error = none
  | .failed => ti.error ≠ none ∧ ti.result = none
  | _ => ti.result = none ∧ ti.error = none

/-! ## Basic lemmas about the table operations -/

lemma lookupTask_updateTask (tbl : Table) (id : Nat) (f : TaskInfo → TaskInfo) (j : Nat) :
    lookupTask (updateTask tbl id f) j =
      if j = id then (lookupTask tbl j).map f else lookupTask tbl j := by
  induction tbl with
  | nil => simp [updateTask, lookupTask]
  | cons p rest ih =>
    obtain ⟨i, ti⟩ := p
    by_cases hid : i = id
    · subst hid
      by_cases hj : i = j
      · subst hj
        simp [updateTask, lookupTask]
      · have hj' : ¬ j = i := fun h => hj h.symm
        simpa [updateTask, lookupTask, hj, hj'] using ih
    · by_cases hj : i = j
      · subst hj
        have hj' : ¬ i = id := hid
        simp [updateTask, lookupTask, hj']
      · simpa [updateTask, lookupTask, hid, hj] using ih

lemma keys_updateTask (tbl : Table) (id : Nat) (f : TaskInfo → TaskInfo) :
    (updateTask tbl id f).map Prod.fst = tbl.map Prod.fst := by
  induction tbl with
  | nil => rfl
  | cons p rest ih =>
    obtain ⟨i, ti⟩ := p
    simp [updateTask, ih]

lemma mem_updateTask {tbl : Table} {id : Nat} {f : TaskInfo → TaskInfo} {q : Nat × TaskInfo}
    (h : q ∈ updateTask tbl id f) :
    ∃ ti₀, (q.1, ti₀) ∈ tbl ∧ q.2 = if q.1 = id then f ti₀ else ti₀ := by
  induction tbl with
  | nil => simp [updateTask] at h
  | cons p rest ih =>
    obtain ⟨i, ti⟩ := p
    simp only [updateTask, List.mem_cons] at h
    rcases h with h | h
    · subst h
      exact ⟨ti, List.mem_cons_self _ _, rfl⟩
    · obtain ⟨ti₀, hmem, hq⟩ := ih h
      exact ⟨ti₀, List.mem_cons_of_mem _ hmem, hq⟩

lemma lookupTask_eq_none_iff (tbl : Table) (id : Nat) :
    lookupTask tbl id = none ↔ id ∉ tbl.map Prod.fst := by
  induction tbl with
  | nil => simp [lookupTask]
  | cons p rest ih =>
    obtain ⟨i, ti⟩ := p
    by_cases hij : i = id
    · subst hij
      simp [lookupTask]
    · have : ¬ id = i := fun h => hij h.symm
      simp [lookupTask, hij, this, ih]

lemma lookupTask_mem {tbl : Table} {id : Nat} {ti : TaskInfo}
    (h : lookupTask tbl id = some ti) : (id, ti) ∈ tbl := by
  induction tbl with
  | nil => simp [lookupTask] at h
  | cons p rest ih =>
    obtain ⟨i, ti'⟩ := p
    by_cases hij : i = id
    · subst hij
      simp only [lookupTask, if_true, eq_self_iff_true, Option.some.injEq] at h
      subst h
      exact List.mem_cons_self _ _
    · simp only [lookupTask, if_neg hij] at h
      exact List.mem_cons_of_mem _ (ih h)

lemma mem_lookupTask {tbl : Table} {id : Nat} {ti : TaskInfo}
    (hnd : (tbl.map Prod.fst).Nodup) (h : (id, ti) ∈ tbl) :
    lookupTask tbl id = some ti := by
  induction tbl with
  | nil => simp at h
  | cons p rest ih =>
    obtain ⟨i, ti'⟩ := p
    simp only [List.map_cons, List.nodup_cons] at hnd
    rcases List.mem_cons.mp h with h | h
    · cases h
      simp [lookupTask]
    · have hi : ¬ i = id := by
        intro hri
        subst hri
        exact hnd.1 (List.mem_map.mpr ⟨(i, ti), h, rfl⟩)
      simp only [lookupTask, if_neg hi]
      exact ih hnd.2 h

lemma updateTask_updateTask (tbl : Table) (id : Nat) (f g : TaskInfo → TaskInfo) :
    updateTask (updateTask tbl id f) id g = updateTask tbl id fun ti => g (f ti) := by
  induction tbl with
  | nil => rfl
  | cons p rest ih =>
    obtain ⟨i, ti⟩ := p
    by_cases hij : i = id
    · simp [updateTask, hij, ih]
    · simp [updateTask, hij, ih]

lemma applyOp_eq_updateTask (tbl : Table) (id : Nat) (t : Int) (op : DriverOp) :
    applyOp tbl id t op = updateTask tbl id (applyOpInfo t op) := by
  cases op with
  | setRunning =>
      simp only [applyOp, set_started_at, update_task_status, updateTask_updateTask]
      rfl
  | setProg p => rfl
  | complete r => rfl
  | failJob e => rfl

lemma lookupTask_foldl_applyOp (id : Nat) (t : Int) :
    ∀ (ops : List DriverOp) (tbl : Table),
      lookupTask (ops.foldl (fun acc op => applyOp acc id t op) tbl) id =
        (lookupTask tbl id).map fun ti =>
          ops.foldl (fun ti op => applyOpInfo t op ti) ti := by
  intro ops
  induction ops with
  | nil =>
    intro tbl
    simp
  | cons op rest ih =>
    intro tbl
    simp only [List.foldl_cons]
    rw [ih, applyOp_eq_updateTask, lookupTask_updateTask]
    cases lookupTask tbl id <;> simp

/-! ## Lemmas about driver traces -/

lemma GoodOps.ne_nil {ops : List DriverOp} (h : GoodOps ops) : ops ≠ [] := by
  cases h <;> simp

lemma GoodOps.tail_of_not_terminal {op : DriverOp} {rest : List DriverOp}
    (h : GoodOps (op :: rest)) (hnt : op.isTerminalOp = false) : GoodOps rest := by
  cases h with
  | completeLast r => simp [DriverOp.isTerminalOp] at hnt
  | failLast e => simp [DriverOp.isTerminalOp] at hnt
  | step _ _ hr => exact hr

lemma GoodOps.rest_nil_of_terminal {op : DriverOp} {rest : List DriverOp}
    (h : GoodOps (op :: rest)) (ht : op.isTerminalOp = true) : rest = [] := by
  cases h with
  | completeLast r => rfl
  | failLast e => rfl
  | step _ hnt hr => rw [hnt] at ht; cases ht

lemma goodOps_append {l rest : List DriverOp}
    (h : ∀ op ∈ l, op.isTerminalOp = false) (hr : GoodOps rest) :
    GoodOps (l ++ rest) := by
  induction l with
  | nil => simpa using hr
  | cons op l ih =>
    exact GoodOps.step op (h op (List.mem_cons_self _ _))
      (ih fun o ho => h o (List.mem_cons_of_mem _ ho))

lemma not_terminal_of_mem_head (cbs : List (Nat × Nat)) :
    ∀ op ∈ DriverOp.setRunning :: DriverOp.setProg 10 ::
        (callback_ops cbs ++ [DriverOp.setProg 95]),
      op.isTerminalOp = false := by
  intro op hop
  rcases List.mem_cons.mp hop with rfl | hop
  · rfl
  rcases List.mem_cons.mp hop with rfl | hop
  · rfl
  rcases List.mem_append.mp hop with hop | hop
  · obtain ⟨c, _, rfl⟩ := List.mem_map.mp hop
    rfl
  · rcases List.mem_singleton.mp hop with rfl
    rfl

lemma goodOps_of_isDriverTrace {ops : List DriverOp} (h : IsDriverTrace ops) :
    GoodOps ops := by
  rcases h with ⟨cbs, r, rfl⟩ | ⟨cbs, e, p, q, hpq, rfl⟩
  · have hsplit : success_ops cbs r =
        (DriverOp.setRunning :: DriverOp.setProg 10 ::
          (callback_ops cbs ++ [DriverOp.setProg 95])) ++ [DriverOp.complete r] := by
      simp [success_ops]
    rw [hsplit]
    exact goodOps_append (not_terminal_of_mem_head cbs) (GoodOps.completeLast r)
  · refine goodOps_append ?_ (GoodOps.failLast _)
    intro op hop
    exact not_terminal_of_mem_head cbs op (hpq ▸ List.mem_append_left q hop)

/-! ## The inductive system invariant -/

/-- The inductive invariant maintained by every step of the system:
key freshness and uniqueness, one driver per job, every queued driver's
job still `PENDING`, every unfinished running driver's job non-terminal
with `result`/`error` unset, the record pairing invariant, the executor's
capacity bound, and the fact that an `IN_PROGRESS` record always belongs
to a driver that is still running. -/
structure Inv (s : Sys) : Prop where
  tableBound : ∀ p ∈ s.table, p.1 < s.nextId
  drvBound : ∀ p ∈ s.queued ++ s.running, p.1 < s.nextId
  tableNodup : (s.table.map Prod.fst).Nodup
  drvNodup : ((s.queued ++ s.running).map Prod.fst).Nodup
  queuedOk : ∀ p ∈ s.queued, GoodOps p.2 ∧
    ∃ ti, lookupTask s.table p.1 = some ti ∧ ti.status = .pending ∧
      ti.result = none ∧ ti.error = none
  runningOk : ∀ p ∈ s.running, p.2 = [] ∨ (GoodOps p.2 ∧
    ∃ ti, lookupTask s.table p.1 = some ti ∧
      (ti.status = .pending ∨ ti.status = .inProgress) ∧
      ti.result = none ∧ ti.error = none)
  statusOk : ∀ p ∈ s.table, StatusOk p.2
  runningCap : s.running.length ≤ 2
  inProgressDrv : ∀ p ∈ s.table, p.2.status = .inProgress →
    ∃ ops, (p.1, ops) ∈ s.running ∧ ops ≠ []

lemma inv_init : Inv initSys := by
  refine ⟨?_, ?_, ?_, ?_, ?_, ?_, ?_, ?_, ?_⟩ <;> simp [initSys]

lemma inv_create (s : Sys) (req : Nat) (t : Int) (ops : List DriverOp)
    (h : IsDriverTrace ops) (hI : Inv s) : Inv (create_task s req t ops).2 := by
  have hfreshT : s.nextId ∉ s.table.map Prod.fst := by
    intro hmem
    obtain ⟨p, hp, hfst⟩ := List.mem_map.mp hmem
    exact absurd hfst (Nat.ne_of_lt (hI.tableBound p hp))
  have hfreshD : s.nextId ∉ (s.queued ++ s.running).map Prod.fst := by
    intro hmem
    obtain ⟨p, hp, hfst⟩ := List.mem_map.mp hmem
    exact absurd hfst (Nat.ne_of_lt (hI.drvBound p hp))
  refine ⟨?_, ?_, ?_, ?_, ?_, ?_, ?_, ?_, ?_⟩
  · intro p hp
    simp only [create_task, List.mem_cons] at hp
    rcases hp with rfl | hp
    · exact Nat.lt_succ_self _
    · exact Nat.lt_succ_of_lt (hI.tableBound p hp)
  · intro p hp
    simp only [create_task] at hp
    rcases List.mem_append.mp hp with hp | hp
    · rcases List.mem_append.mp hp with hp | hp
      · exact Nat.lt_succ_of_lt (hI.drvBound p (List.mem_append_left _ hp))
      · rcases List.mem_singleton.mp hp with rfl
        exact Nat.lt_succ_self _
    · exact Nat.lt_succ_of_lt (hI.drvBound p (List.mem_append_right _ hp))
  · simpa [create_task, List.nodup_cons, hfreshT] using hI.tableNodup
  · have hperm :
        ((s.queued ++ [(s.nextId, ops)]) ++ s.running).Perm
          ((s.nextId, ops) :: (s.queued ++ s.running)) := by
      have h1 : (s.queued ++ [(s.nextId, ops)]) ++ s.running =
          s.queued ++ ((s.nextId, ops) :: s.running) := by simp
      rw [h1]
      exact List.perm_middle
    have hgoal :
        ((create_task s req t ops).2.queued ++ (create_task s req t ops).2.running) =
          (s.queued ++ [(s.nextId, ops)]) ++ s.running := by
      simp [create_task]
    rw [hgoal]
    refine ((hperm.map Prod.fst).nodup_iff).mpr ?_
    rw [List.map_cons]
    exact List.nodup_cons.mpr ⟨hfreshD, hI.drvNodup⟩
  · intro p hp
    simp only [create_task] at hp
    rcases List.mem_append.mp hp with hp | hp
    · obtain ⟨hgood, ti, hlook, hst, hres, herr⟩ := hI.queuedOk p hp
      have hne : ¬ s.nextId = p.1 :=
        (Nat.ne_of_lt (hI.drvBound p (List.mem_append_left _ hp))).symm
      refine ⟨hgood, ti, ?_, hst, hres, herr⟩
      simpa [create_task, lookupTask, hne] using hlook
    · rcases List.mem_singleton.mp hp with rfl
      refine ⟨goodOps_of_isDriverTrace h, mkTaskInfo s.nextId req t, ?_, rfl, rfl, rfl⟩
      simp [create_task, lookupTask]
  · intro p hp
    simp only [create_task] at hp
    rcases hI.runningOk p hp with hnil | ⟨hgood, ti, hlook, hst, hres, herr⟩
    · exact Or.inl hnil
    · have hne : ¬ s.nextId = p.1 :=
        (Nat.ne_of_lt (hI.drvBound p (List.mem_append_right _ hp))).symm
      refine Or.inr ⟨hgood, ti, ?_, hst, hres, herr⟩
      simpa [create_task, lookupTask, hne] using hlook
  · intro p hp
    simp only [create_task, List.mem_cons] at hp
    rcases hp with rfl | hp
    · simp [StatusOk, mkTaskInfo]
    · exact hI.statusOk p hp
  · simpa [create_task] using hI.runningCap
  · intro p hp hst
    simp only [create_task, List.mem_cons] at hp
    rcases hp with rfl | hp
    · simp [mkTaskInfo] at hst
    · exact hI.inProgressDrv p hp hst

lemma inv_dispatch (s : Sys) (id : Nat) (ops : List DriverOp)
    (rest : List (Nat × List DriverOp))
    (hq : s.queued = (id, ops) :: rest) (hcap : s.running.length < 2) (hI : Inv s) :
    Inv { s with queued := rest, running := s.running ++ [(id, ops)] } := by
  have hmemOld : ∀ p ∈ rest ++ (s.running ++ [(id, ops)]), p ∈ s.queued ++ s.running := by
    intro p hp
    rcases List.mem_append.mp hp with hp | hp
    · exact List.mem_append_left _ (hq ▸ List.mem_cons_of_mem _ hp)
    · rcases List.mem_append.mp hp with hp | hp
      · exact List.mem_append_right _ hp
      · rcases List.mem_singleton.mp hp with rfl
        exact List.mem_append_left _ (hq ▸ List.mem_cons_self _ _)
  refine ⟨?_, ?_, ?_, ?_, ?_, ?_, ?_, ?_, ?_⟩
  · exact fun p hp => hI.tableBound p hp
  · exact fun p hp => hI.drvBound p (hmemOld p hp)
  · exact hI.tableNodup
  · have hperm : (rest ++ (s.running ++ [(id, ops)])).Perm (s.queued ++ s.running) := by
      rw [hq]
      have h1 : rest ++ (s.running ++ [(id, ops)]) = (rest ++ s.running) ++ [(id, ops)] := by
        simp
      have h2 : ((id, ops) :: rest) ++ s.running = (id, ops) :: (rest ++ s.running) := by
        simp
      rw [h1, h2]
      exact List.perm_append_singleton _ _
    exact ((hperm.map Prod.fst).nodup_iff).mpr hI.drvNodup
  · intro p hp
    exact hI.queuedOk p (hq ▸ List.mem_cons_of_mem _ hp)
  · intro p hp
    rcases List.mem_append.mp hp with hp | hp
    · exact hI.runningOk p hp
    · rcases List.mem_singleton.mp hp with rfl
      obtain ⟨hgood, ti, hlook, hst, hres, herr⟩ :=
        hI.queuedOk (id, ops) (hq ▸ List.mem_cons_self _ _)
      exact Or.inr ⟨hgood, ti, hlook, Or.inl hst, hres, herr⟩
  · exact hI.statusOk
  · simpa using Nat.succ_le_of_lt hcap
  · intro p hp hst
    obtain ⟨ops', hmem, hne⟩ := hI.inProgressDrv p hp hst
    exact ⟨ops', List.mem_append_left _ hmem, hne⟩

lemma inv_finish (s : Sys) (id : Nat) (pre post : List (Nat × List DriverOp))
    (hr : s.running = pre ++ (id, ([] : List DriverOp)) :: post) (hI : Inv s) :
    Inv { s with running := pre ++ post } := by
  have hsubRun : List.Sublist (pre ++ post) s.running := by
    rw [hr]
    exact (List.sublist_cons_self _ _).append_left pre
  have hsub : List.Sublist (s.queued ++ (pre ++ post)) (s.queued ++ s.running) :=
    hsubRun.append_left s.queued
  refine ⟨?_, ?_, ?_, ?_, ?_, ?_, ?_, ?_, ?_⟩
  · exact hI.tableBound
  · exact fun p hp => hI.drvBound p (hsub.subset hp)
  · exact hI.tableNodup
  · exact hI.drvNodup.sublist (hsub.map Prod.fst)
  · exact hI.queuedOk
  · exact fun p hp => hI.runningOk p (hsubRun.subset hp)
  · exact hI.statusOk
  · calc (pre ++ post).length ≤ s.running.length := hsubRun.length_le
      _ ≤ 2 := hI.runningCap
  · intro p hp hst
    obtain ⟨ops', hmem, hne⟩ := hI.inProgressDrv p hp hst
    rw [hr] at hmem
    rcases List.mem_append.mp hmem with hmem | hmem
    · exact ⟨ops', List.mem_append_left _ hmem, hne⟩
    · rcases List.mem_cons.mp hmem with he | hmem
      · exact absurd (congrArg Prod.snd he) hne
      · exact ⟨ops', List.mem_append_right _ hmem, hne⟩

lemma inv_exec (s : Sys) (id : Nat) (op : DriverOp) (rest : List DriverOp)
    (pre post : List (Nat × List DriverOp)) (t : Int)
    (hr : s.running = pre ++ (id, op :: rest) :: post) (hI : Inv s) :
    Inv { s with table := applyOp s.table id t op,
                 running := pre ++ (id, rest) :: post } := by
  have hmemRun : (id, op :: rest) ∈ s.running := by
    rw [hr]
    exact List.mem_append_right _ (List.mem_cons_self _ _)
  rcases hI.runningOk _ hmemRun with hnil | ⟨hgood, ti, hlook, hst, hres, herr⟩
  · simp at hnil
  have hOldPre : ∀ q : Nat × List DriverOp, q ∈ pre → q ∈ s.running := by
    intro q hq
    rw [hr]
    exact List.mem_append_left _ hq
  have hOldPost : ∀ q : Nat × List DriverOp, q ∈ post → q ∈ s.running := by
    intro q hq
    rw [hr]
    exact List.mem_append_right _ (List.mem_cons_of_mem _ hq)
  have hidRun : id ∈ s.running.map Prod.fst := List.mem_map.mpr ⟨_, hmemRun, rfl⟩
  have hQRsplit := hI.drvNodup
  rw [List.map_append] at hQRsplit
  have hidNotQ : id ∉ s.queued.map Prod.fst := by
    intro hq
    exact (List.nodup_append.mp hQRsplit).2.2 hq hidRun
  have hrunNodup : (s.running.map Prod.fst).Nodup := (List.nodup_append.mp hQRsplit).2.1
  have hprepost : id ∉ pre.map Prod.fst ∧ id ∉ post.map Prod.fst := by
    rw [hr, List.map_append, List.map_cons] at hrunNodup
    have h1 := List.nodup_append.mp hrunNodup
    exact ⟨fun hmem => h1.2.2 hmem (List.mem_cons_self _ _),
           (List.nodup_cons.mp h1.2.1).1⟩
  have htiUnique : ∀ ti₀, (id, ti₀) ∈ s.table → ti₀ = ti := by
    intro ti₀ hm
    have h2 := mem_lookupTask hI.tableNodup hm
    rw [hlook] at h2
    exact (Option.some_inj.mp h2).symm
  refine ⟨?_, ?_, ?_, ?_, ?_, ?_, ?_, ?_, ?_⟩
  · intro p hp
    rw [applyOp_eq_updateTask] at hp
    obtain ⟨ti₀, hm, -⟩ := mem_updateTask hp
    exact hI.tableBound (p.1, ti₀) hm
  · intro p hp
    rcases List.mem_append.mp hp with hp | hp
    · exact hI.drvBound p (List.mem_append_left _ hp)
    · rcases List.mem_append.mp hp with hp | hp
      · exact hI.drvBound p (List.mem_append_right _ (hOldPre p hp))
      · rcases List.mem_cons.mp hp with rfl | hp
        · exact hI.drvBound (id, op :: rest) (List.mem_append_right _ hmemRun)
        · exact hI.drvBound p (List.mem_append_right _ (hOldPost p hp))
  · rw [applyOp_eq_updateTask, keys_updateTask]
    exact hI.tableNodup
  · have h4 : (s.queued ++ (pre ++ (id, rest) :: post)).map Prod.fst =
        (s.queued ++ s.running).map Prod.fst := by
      simp [hr]
    exact h4 ▸ hI.drvNodup
  · intro p hp
    obtain ⟨hgood', ti', hlook', hst', hres', herr'⟩ := hI.queuedOk p hp
    have hne : ¬ p.1 = id := fun he => hidNotQ (he ▸ List.mem_map.mpr ⟨p, hp, rfl⟩)
    refine ⟨hgood', ti', ?_, hst', hres', herr'⟩
    rw [applyOp_eq_updateTask, lookupTask_updateTask, if_neg hne]
    exact hlook'
  · intro p hp
    rcases List.mem_append.mp hp with hp | hp
    · have hpne : ¬ p.1 = id := fun he => hprepost.1 (he ▸ List.mem_map.mpr ⟨p, hp, rfl⟩)
      rcases hI.runningOk p (hOldPre p hp) with h | ⟨hg, ti', hl, hs, hr', he'⟩
      · exact Or.inl h
      · refine Or.inr ⟨hg, ti', ?_, hs, hr', he'⟩
        rw [applyOp_eq_updateTask, lookupTask_updateTask, if_neg hpne]
        exact hl
    · rcases List.mem_cons.mp hp with rfl | hp
      · rcases Bool.eq_false_or_eq_true op.isTerminalOp with hterm | hterm
        · exact Or.inl (hgood.rest_nil_of_terminal hterm)
        · have hgr : GoodOps rest := hgood.tail_of_not_terminal hterm
          refine Or.inr ⟨hgr, applyOpInfo t op ti, ?_, ?_, ?_, ?_⟩
          · rw [applyOp_eq_updateTask, lookupTask_updateTask]
            simp [hlook]
          · cases op with
            | setRunning => exact Or.inr rfl
            | setProg pr => simpa [applyOpInfo] using hst
            | complete r => simp [DriverOp.isTerminalOp] at hterm
            | failJob e => simp [DriverOp.isTerminalOp] at hterm
          · cases op with
            | setRunning => simpa [applyOpInfo] using hres
            | setProg pr => simpa [applyOpInfo] using hres
            | complete r => simp [DriverOp.isTerminalOp] at hterm
            | failJob e => simp [DriverOp.isTerminalOp] at hterm
          · cases op with
            | setRunning => simpa [applyOpInfo] using herr
            | setProg pr => simpa [applyOpInfo] using herr
            | complete r => simp [DriverOp.isTerminalOp] at hterm
            | failJob e => simp [DriverOp.isTerminalOp] at hterm
      · have hpne : ¬ p.1 = id := fun he => hprepost.2 (he ▸ List.mem_map.mpr ⟨p, hp, rfl⟩)
        rcases hI.runningOk p (hOldPost p hp) with h | ⟨hg, ti', hl, hs, hr', he'⟩
        · exact Or.inl h
        · refine Or.inr ⟨hg, ti', ?_, hs, hr', he'⟩
          rw [applyOp_eq_updateTask, lookupTask_updateTask, if_neg hpne]
          exact hl
  · intro p hp
    rw [applyOp_eq_updateTask] at hp
    obtain ⟨ti₀, hm, heq⟩ := mem_updateTask hp
    by_cases hpe : p.1 = id
    · rw [if_pos hpe] at heq
      have hti : ti₀ = ti := htiUnique ti₀ (hpe ▸ hm)
      subst hti
      rw [heq]
      cases op with
      | setRunning => simp [applyOpInfo, StatusOk, hres, herr]
      | setProg pr =>
        rcases hst with h | h <;> simp [applyOpInfo, StatusOk, h, hres, herr]
      | complete r => simp [applyOpInfo, StatusOk, herr]
      | failJob e => simp [applyOpInfo, StatusOk, hres]
    · rw [if_neg hpe] at heq
      rw [heq]
      exact hI.statusOk (p.1, ti₀) hm
  · have h8 : (pre ++ (id, rest) :: post).length = s.running.length := by simp [hr]
    calc (pre ++ (id, rest) :: post).length = s.running.length := h8
      _ ≤ 2 := hI.runningCap
  · intro p hp hstp
    rw [applyOp_eq_updateTask] at hp
    obtain ⟨ti₀, hm, heq⟩ := mem_updateTask hp
    by_cases hpe : p.1 = id
    · rw [if_pos hpe] at heq
      have hti : ti₀ = ti := htiUnique ti₀ (hpe ▸ hm)
      subst hti
      rw [heq] at hstp
      cases op with
      | setRunning =>
        have hgr : GoodOps rest := hgood.tail_of_not_terminal rfl
        exact ⟨rest, by rw [hpe]; exact List.mem_append_right _ (List.mem_cons_self _ _),
               hgr.ne_nil⟩
      | setProg pr =>
        have hgr : GoodOps rest := hgood.tail_of_not_terminal rfl
        exact ⟨rest, by rw [hpe]; exact List.mem_append_right _ (List.mem_cons_self _ _),
               hgr.ne_nil⟩
      | complete r => simp [applyOpInfo] at hstp
      | failJob e => simp [applyOpInfo] at hstp
    · rw [if_neg hpe] at heq
      have hstold : ti₀.status = .inProgress := by rw [← heq]; exact hstp
      obtain ⟨ops', hmem', hne'⟩ := hI.inProgressDrv (p.1, ti₀) hm hstold
      rw [hr] at hmem'
      rcases List.mem_append.mp hmem' with hmem' | hmem'
      · exact ⟨ops', List.mem_append_left _ hmem', hne'⟩
      · rcases List.mem_cons.mp hmem' with he | hmem'
        · exact absurd (congrArg Prod.fst he) hpe
        · exact ⟨ops', List.mem_append_right _ (List.mem_cons_of_mem _ hmem'), hne'⟩

lemma lookupTask_filter_keep {tbl : Table} {id : Nat} {ti : TaskInfo}
    {f : Nat × TaskInfo → Bool}
    (hnd : (tbl.map Prod.fst).Nodup) (hl : lookupTask tbl id = some ti)
    (hkeep : f (id, ti) = true) :
    lookupTask (tbl.filter f) id = some ti :=
  mem_lookupTask (hnd.sublist ((List.filter_sublist tbl).map Prod.fst))
    (List.mem_filter.mpr ⟨lookupTask_mem hl, hkeep⟩)

lemma inv_cleanup (s : Sys) (now max_age : Int) (hI : Inv s) :
    Inv { s with table := (cleanup_old_tasks s.table now max_age).1 } := by
  have hdef : (cleanup_old_tasks s.table now max_age).1 =
      s.table.filter fun p => !should_remove (now - max_age * 3600) p.2 := rfl
  refine ⟨?_, ?_, ?_, ?_, ?_, ?_, ?_, ?_, ?_⟩
  · intro p hp
    rw [hdef] at hp
    exact hI.tableBound p (List.mem_of_mem_filter hp)
  · exact hI.drvBound
  · rw [hdef]
    exact hI.tableNodup.sublist ((List.filter_sublist _).map Prod.fst)
  · exact hI.drvNodup
  · intro p hp
    obtain ⟨hgood, ti, hlook, hst, hres, herr⟩ := hI.queuedOk p hp
    refine ⟨hgood, ti, ?_, hst, hres, herr⟩
    rw [hdef]
    exact lookupTask_filter_keep hI.tableNodup hlook (by simp [should_remove, hst])
  · intro p hp
    rcases hI.runningOk p hp with h | ⟨hg, ti, hl, hs, hr', he'⟩
    · exact Or.inl h
    · refine Or.inr ⟨hg, ti, ?_, hs, hr', he'⟩
      rw [hdef]
      refine lookupTask_filter_keep hI.tableNodup hl ?_
      rcases hs with h | h <;> simp [should_remove, h]
  · intro p hp
    rw [hdef] at hp
    exact hI.statusOk p (List.mem_of_mem_filter hp)
  · exact hI.runningCap
  · intro p hp hst
    rw [hdef] at hp
    exact hI.inProgressDrv p (List.mem_of_mem_filter hp) hst

/-- Every step of the system preserves the invariant. -/
theorem inv_preserved {s s' : Sys} (hI : Inv s) (h : Step s s') : Inv s' := by
  cases h with
  | create req t ops hdt => exact inv_create s req t ops hdt hI
  | dispatch id ops rest hq hcap => exact inv_dispatch s id ops rest hq hcap hI
  | exec id op rest pre post t hr => exact inv_exec s id op rest pre post t hr hI
  | finish id pre post hr => exact inv_finish s id pre post hr hI
  | cleanup now mah => exact inv_cleanup s now mah hI

/-- Every reachable state satisfies the invariant. -/
theorem inv_reachable {s : Sys} (h : Reachable s) : Inv s := by
  induction h with
  | refl => exact inv_init
  | tail hsteps hstep ih => exact inv_preserved ih hstep

/-! ## Shared facts about the progress rescaling and the table counts -/

lemma rescale_progress_ge_20 (cs ts : Nat) : 20 ≤ rescale_progress cs ts :=
  le_min (Nat.le_add_right _ _) (by norm_num)

lemma rescale_progress_le_90 (cs ts : Nat) : rescale_progress cs ts ≤ 90 :=
  min_le_right _ _

lemma rescale_progress_mono {cs cs' : Nat} (ts : Nat) (h : cs ≤ cs') :
    rescale_progress cs ts ≤ rescale_progress cs' ts := by
  unfold rescale_progress
  refine min_le_min (Nat.add_le_add_left ?_ _) le_rfl
  exact Nat.div_le_div_right (Nat.mul_le_mul_right _ (Nat.add_le_add_right h 1))

lemma updateTask_mem_of_mem {tbl : Table} {id : Nat} {f : TaskInfo → TaskInfo}
    {i : Nat} {ti : TaskInfo} (h : (i, ti) ∈ tbl) :
    (i, if i = id then f ti else ti) ∈ updateTask tbl id f := by
  induction tbl with
  | nil => simp at h
  | cons p rest ih =>
    obtain ⟨j, tj⟩ := p
    rcases List.mem_cons.mp h with he | h
    · rw [updateTask]
      refine List.mem_cons.mpr (Or.inl ?_)
      obtain ⟨rfl, rfl⟩ := Prod.mk.injEq .. ▸ he
      rfl
    · exact List.mem_cons.mpr (Or.inr (ih h))

lemma errorMessage_ne_empty (e : String) : errorMessage e ≠ "" := by
  intro h
  have h2 : (errorMessage e).data = ("" : String).data := congrArg String.data h
  rw [errorMessage, String.data_append] at h2
  have h3 : ("タスク実行エラー: " : String).data = [] := (List.append_eq_nil.mp h2).1
  cases h3

lemma count_inProgress_le_running (s : Sys) (hI : Inv s) :
    (s.table.filter fun p => decide (p.2.status = TaskStatus.inProgress)).length ≤
      s.running.length := by
  have hnodup :
      ((s.table.filter fun p => decide (p.2.status = TaskStatus.inProgress)).map
        Prod.fst).Nodup :=
    hI.tableNodup.sublist ((List.filter_sublist _).map Prod.fst)
  have hsubset :
      ∀ x ∈ (s.table.filter fun p => decide (p.2.status = TaskStatus.inProgress)).map
          Prod.fst,
        x ∈ s.running.map Prod.fst := by
    intro x hx
    obtain ⟨p, hp, rfl⟩ := List.mem_map.mp hx
    have hmem := List.mem_filter.mp hp
    have hst : p.2.status = .inProgress := of_decide_eq_true hmem.2
    obtain ⟨ops, hmem', -⟩ := hI.inProgressDrv p hmem.1 hst
    exact List.mem_map.mpr ⟨(p.1, ops), hmem', rfl⟩
  calc (s.table.filter fun p => decide (p.2.status = TaskStatus.inProgress)).length
      = ((s.table.filter fun p => decide (p.2.status = TaskStatus.inProgress)).map
          Prod.fst).length := (List.length_map _ _).symm
    _ = ((s.table.filter fun p => decide (p.2.status = TaskStatus.inProgress)).map
          Prod.fst).toFinset.card := (List.toFinset_card_of_nodup hnodup).symm
    _ ≤ (s.running.map Prod.fst).toFinset.card := by
        refine Finset.card_le_card ?_
        intro x hx
        exact List.mem_toFinset.mpr (hsubset x (List.mem_toFinset.mp hx))
    _ ≤ (s.running.map Prod.fst).length := List.toFinset_card_le _
    _ = s.running.length := List.length_map _ _

lemma count_status_sum (tbl : Table) :
    count_status tbl .pending + count_status tbl .inProgress +
      count_status tbl .completed + count_status tbl .failed = tbl.length := by
  induction tbl with
  | nil => rfl
  | cons p rest ih =>
    obtain ⟨i, ti⟩ := p
    simp only [count_status, List.filter_cons] at ih ⊢
    cases h : ti.status <;> simp [h] <;> omega

/-! ## Shape of the driver's progress trace -/

lemma taskProgressTrace_nil (ti : TaskInfo) (t : Int) :
    taskProgressTrace ti t [] = [ti.progress] := by
  simp [taskProgressTrace]

lemma taskProgressTrace_cons (ti : TaskInfo) (t : Int) (op : DriverOp)
    (ops : List DriverOp) :
    taskProgressTrace ti t (op :: ops) =
      ti.progress :: taskProgressTrace (applyOpInfo t op ti) t ops := by
  simp [taskProgressTrace, List.scanl_cons]

lemma taskProgressTrace_append (t : Int) (l₁ l₂ : List DriverOp) :
    ∀ ti : TaskInfo,
      taskProgressTrace ti t (l₁ ++ l₂) =
        taskProgressTrace ti t l₁ ++
          (taskProgressTrace (l₁.foldl (fun ti op => applyOpInfo t op ti) ti) t l₂).tail := by
  induction l₁ with
  | nil =>
    intro ti
    cases l₂ with
    | nil => simp [taskProgressTrace_nil]
    | cons op ops => simp [taskProgressTrace_nil, taskProgressTrace_cons]
  | cons op ops ih =>
    intro ti
    simp [taskProgressTrace_cons, ih, List.foldl_cons]

lemma taskProgressTrace_callback_ops (t : Int) :
    ∀ (cbs : List (Nat × Nat)) (ti : TaskInfo),
      taskProgressTrace ti t (callback_ops cbs) =
        ti.progress :: cbs.map fun c => rescale_progress c.1 c.2 := by
  intro cbs
  induction cbs with
  | nil =>
    intro ti
    simp [callback_ops, taskProgressTrace_nil]
  | cons c cs ih =>
    intro ti
    have hle : rescale_progress c.1 c.2 ≤ 100 :=
      le_trans (rescale_progress_le_90 c.1 c.2) (by norm_num)
    have hmin : min (rescale_progress c.1 c.2) 100 = rescale_progress c.1 c.2 :=
      min_eq_left hle
    have happ : applyOpInfo t (DriverOp.setProg (rescale_progress c.1 c.2)) ti =
        { ti with progress := rescale_progress c.1 c.2 } := by
      simp [applyOpInfo, hmin]
    have hih := ih { ti with progress := rescale_progress c.1 c.2 }
    simp only [callback_ops, List.map_cons, taskProgressTrace_cons, happ]
    simp only [callback_ops] at hih
    simpa using hih

lemma foldl_callback_ops_progress (t : Int) :
    ∀ (cbs : List (Nat × Nat)) (ti : TaskInfo),
      ((callback_ops cbs).foldl (fun ti op => applyOpInfo t op ti) ti).progress =
        (cbs.map fun c => rescale_progress c.1 c.2).getLastD ti.progress := by
  intro cbs
  induction cbs with
  | nil =>
    intro ti
    simp [callback_ops]
  | cons c cs ih =>
    intro ti
    have hle : rescale_progress c.1 c.2 ≤ 100 :=
      le_trans (rescale_progress_le_90 c.1 c.2) (by norm_num)
    have hmin : min (rescale_progress c.1 c.2) 100 = rescale_progress c.1 c.2 :=
      min_eq_left hle
    have happ : applyOpInfo t (DriverOp.setProg (rescale_progress c.1 c.2)) ti =
        { ti with progress := rescale_progress c.1 c.2 } := by
      simp [applyOpInfo, hmin]
    have hih := ih { ti with progress := rescale_progress c.1 c.2 }
    simp only [callback_ops, List.map_cons, List.foldl_cons, List.getLastD_cons, happ]
    simp only [callback_ops] at hih
    simpa using hih

lemma taskProgressTrace_success (ti : TaskInfo) (t : Int) (cbs : List (Nat × Nat))
    (r : String) :
    taskProgressTrace ti t (success_ops cbs r) =
      ti.progress :: 0 :: 10 ::
        ((cbs.map fun c => rescale_progress c.1 c.2) ++ [95, 100]) := by
  rw [success_ops, taskProgressTrace_cons, taskProgressTrace_cons,
    taskProgressTrace_append, taskProgressTrace_callback_ops]
  simp [taskProgressTrace_cons, taskProgressTrace_nil, applyOpInfo]

lemma taskProgressTrace_failure (ti : TaskInfo) (t : Int) (cbs : List (Nat × Nat))
    (e : String) :
    taskProgressTrace ti t (failure_ops cbs e) =
      ti.progress :: 0 :: 10 ::
        ((cbs.map fun c => rescale_progress c.1 c.2) ++
          [(cbs.map fun c => rescale_progress c.1 c.2).getLastD 10]) := by
  rw [failure_ops, taskProgressTrace_cons, taskProgressTrace_cons,
    taskProgressTrace_append, taskProgressTrace_callback_ops]
  have hfold := foldl_callback_ops_progress t cbs
    (applyOpInfo t (DriverOp.setProg 10) (applyOpInfo t DriverOp.setRunning ti))
  simp [taskProgressTrace_cons, taskProgressTrace_nil, applyOpInfo] at hfold ⊢
  simp [hfold]

/-- Removing the matching records and counting them partitions the table. -/
lemma length_filter_not_add (tbl : Table) (f : Nat × TaskInfo → Bool) :
    (tbl.filter fun p => f p).length + (tbl.filter fun p => !f p).length = tbl.length := by
  induction tbl with
  | nil => rfl
  | cons p rest ih =>
    by_cases h : f p <;> simp [List.filter_cons, h] <;> omega

/-- A one-step sample run: one job created and queued on the fresh process. -/
def sampleTrace : List DriverOp := success_ops [] "img"

/-- The state after that single `create_task`. -/
def sampleSys : Sys := (create_task initSys 0 0 sampleTrace).2

lemma sampleSys_reachable : Reachable sampleSys :=
  Relation.ReflTransGen.single
    (Step.create initSys 0 0 sampleTrace (Or.inl ⟨[], "img", rfl⟩))

/-! ## Claim theorems -/

/-- C1: when the Execution Backend raises `e` during `_execute_task` for a
job id present in the table, the driver absorbs the exception (the embedded
driver is a total state transformer, so it returns normally) and the
record transitions to `FAILED` with `error` set to the non-empty formatted
message, which contains the raised exception's message. -/
theorem execute_task_backend_failure (tbl : Table) (id : Nat)
    (cbs : List (Nat × Nat)) (e : String) (t : Int) (ti₀ : TaskInfo)
    (hlook : lookupTask tbl id = some ti₀) :
    ∃ ti, lookupTask (execute_task tbl id cbs (Except.error e) t) id = some ti ∧
      ti.status = TaskStatus.failed ∧
      ti.error = some (errorMessage e) ∧
      errorMessage e ≠ "" ∧
      ∃ a b, errorMessage e = a ++ e ++ b := by
  have hexec : execute_task tbl id cbs (Except.error e) t =
      (driver_ops cbs (Except.error e)).foldl (fun acc op => applyOp acc id t op) tbl := by
    rw [execute_task, hlook]
  have hsplit : driver_ops cbs (Except.error e) =
      (DriverOp.setRunning :: DriverOp.setProg 10 :: callback_ops cbs) ++
        [DriverOp.failJob (errorMessage e)] := by
    simp [driver_ops, failure_ops]
  have hfold : ∀ ti : TaskInfo,
      (driver_ops cbs (Except.error e)).foldl (fun ti op => applyOpInfo t op ti) ti =
        applyOpInfo t (DriverOp.failJob (errorMessage e))
          ((DriverOp.setRunning :: DriverOp.setProg 10 :: callback_ops cbs).foldl
            (fun ti op => applyOpInfo t op ti) ti) := by
    intro ti
    rw [hsplit, List.foldl_append]
    rfl
  rw [hexec, lookupTask_foldl_applyOp, hlook]
  refine ⟨_, rfl, ?_, ?_, errorMessage_ne_empty e,
    "タスク実行エラー: ", "", by simp [errorMessage]⟩
  · show (List.foldl (fun ti op => applyOpInfo t op ti) ti₀
        (driver_ops cbs (Except.error e))).status = TaskStatus.failed
    rw [hfold ti₀]
    rfl
  · show (List.foldl (fun ti op => applyOpInfo t op ti) ti₀
        (driver_ops cbs (Except.error e))).error = some (errorMessage e)
    rw [hfold ti₀]
    rfl

/-- Witness for the C1 theorem at a concrete table and message. -/
theorem execute_task_backend_failure_witness :
    ∃ ti, lookupTask (execute_task [(0, mkTaskInfo 0 0 0)] 0 []
        (Except.error "boom") 5) 0 = some ti ∧
      ti.status = TaskStatus.failed ∧
      ti.error = some (errorMessage "boom") ∧
      errorMessage "boom" ≠ "" ∧
      ∃ a b, errorMessage "boom" = a ++ "boom" ++ b :=
  execute_task_backend_failure [(0, mkTaskInfo 0 0 0)] 0 [] "boom" 5
    (mkTaskInfo 0 0 0) rfl

/-- C2: in every reachable state of the job table, under any interleaving
of `create_task`, driver steps, and `cleanup_old_tasks`: a `COMPLETED`
record has `result` set and `error` unset, a `FAILED` record has `error`
set and `result` unset, and a `PENDING` or `IN_PROGRESS` record has both
unset. -/
theorem task_table_pairing (s : Sys) (hreach : Reachable s) :
    ∀ p ∈ s.table,
      (p.2.status = TaskStatus.completed → p.2.result ≠ none ∧ p.2.error = none) ∧
      (p.2.status = TaskStatus.failed → p.2.error ≠ none ∧ p.2.result = none) ∧
      ((p.2.status = TaskStatus.pending ∨ p.2.status = TaskStatus.inProgress) →
        p.2.result = none ∧ p.2.error = none) := by
  intro p hp
  have hS := (inv_reachable hreach).statusOk p hp
  refine ⟨?_, ?_, ?_⟩
  · intro hc
    unfold StatusOk at hS
    rw [hc] at hS
    exact hS
  · intro hc
    unfold StatusOk at hS
    rw [hc] at hS
    exact hS
  · intro hc
    unfold StatusOk at hS
    rcases hc with h | h <;> rw [h] at hS <;> exact hS

/-- Witness for the C2 theorem on a concrete reachable state. -/
theorem task_table_pairing_witness :
    (mkTaskInfo 0 0 0).result = none ∧ (mkTaskInfo 0 0 0).error = none :=
  (task_table_pairing sampleSys sampleSys_reachable (0, mkTaskInfo 0 0 0)
    (by simp [sampleSys, create_task, initSys])).2.2 (Or.inl rfl)

/-- C3: `create_task` allocates an id absent from the table, inserts a
`PENDING` record with progress 0, unset result/error and `created_at`
stamped, and returns without executing the driver (the running set is
untouched); an immediate `get_task_status` on the returned id yields that
record. -/
theorem create_task_fresh_pending (s : Sys) (req : Nat) (t : Int)
    (ops : List DriverOp) (hfresh : ∀ p ∈ s.table, p.1 < s.nextId) :
    (create_task s req t ops).1 ∉ s.table.map Prod.fst ∧
    get_task_status (create_task s req t ops).2.table (create_task s req t ops).1 =
      some (mkTaskInfo s.nextId req t) ∧
    (mkTaskInfo s.nextId req t).status = TaskStatus.pending ∧
    (mkTaskInfo s.nextId req t).progress = 0 ∧
    (mkTaskInfo s.nextId req t).result = none ∧
    (mkTaskInfo s.nextId req t).error = none ∧
    (mkTaskInfo s.nextId req t).created_at = t ∧
    (create_task s req t ops).2.running = s.running := by
  refine ⟨?_, ?_, rfl, rfl, rfl, rfl, rfl, rfl⟩
  · intro hmem
    obtain ⟨p, hp, hfst⟩ := List.mem_map.mp hmem
    exact absurd hfst (Nat.ne_of_lt (hfresh p hp))
  · simp [create_task, get_task_status, lookupTask]

/-- Witness for the C3 theorem on the fresh process. -/
theorem create_task_fresh_pending_witness :
    get_task_status (create_task initSys 7 5 []).2.table
        (create_task initSys 7 5 []).1 = some (mkTaskInfo 0 7 5) :=
  (create_task_fresh_pending initSys 7 5 [] (by simp [initSys])).2.1

/-- C4: `cleanup_old_tasks` keeps exactly the records that are not
(terminal and older than the cutoff), returns the removed count, and
never removes a `PENDING` or `IN_PROGRESS` record regardless of age. -/
theorem cleanup_old_tasks_spec (tbl : Table) (now max_age_hours : Int) :
    (∀ q : Nat × TaskInfo,
      q ∈ (cleanup_old_tasks tbl now max_age_hours).1 ↔
        q ∈ tbl ∧
          ¬((q.2.status = TaskStatus.completed ∨ q.2.status = TaskStatus.failed) ∧
            q.2.created_at < now - max_age_hours * 3600)) ∧
    (cleanup_old_tasks tbl now max_age_hours).2 +
      (cleanup_old_tasks tbl now max_age_hours).1.length = tbl.length ∧
    ∀ q : Nat × TaskInfo, q ∈ tbl →
      (q.2.status = TaskStatus.pending ∨ q.2.status = TaskStatus.inProgress) →
      q ∈ (cleanup_old_tasks tbl now max_age_hours).1 := by
  have hmem : ∀ q : Nat × TaskInfo,
      q ∈ (cleanup_old_tasks tbl now max_age_hours).1 ↔
        q ∈ tbl ∧
          ¬((q.2.status = TaskStatus.completed ∨ q.2.status = TaskStatus.failed) ∧
            q.2.created_at < now - max_age_hours * 3600) := by
    intro q
    simp [cleanup_old_tasks, List.mem_filter, should_remove]
    tauto
  refine ⟨hmem, ?_, ?_⟩
  · have hpart := length_filter_not_add tbl
      (fun p => should_remove (now - max_age_hours * 3600) p.2)
    simp only [cleanup_old_tasks]
    omega
  · intro q hq hst
    refine (hmem q).mpr ⟨hq, ?_⟩
    rcases hst with h | h <;> simp [h]

/-- Witness for the C4 theorem: a fresh `PENDING` record survives an
age-zero sweep. -/
theorem cleanup_old_tasks_spec_witness :
    (0, mkTaskInfo 0 0 0) ∈ (cleanup_old_tasks [(0, mkTaskInfo 0 0 0)] 1000000 0).1 :=
  (cleanup_old_tasks_spec [(0, mkTaskInfo 0 0 0)] 1000000 0).2.2 (0, mkTaskInfo 0 0 0)
    (by simp) (Or.inl rfl)

/-- C5: `get_task_status` returns `None` exactly when the id is not a key
of the table, and returns the stored record for any present id; it is a
total function, so it never raises, whatever the record's state. -/
theorem get_task_status_spec (tbl : Table) (id : Nat)
    (hnd : (tbl.map Prod.fst).Nodup) :
    (get_task_status tbl id = none ↔ id ∉ tbl.map Prod.fst) ∧
    ∀ ti : TaskInfo, (id, ti) ∈ tbl → get_task_status tbl id = some ti :=
  ⟨lookupTask_eq_none_iff tbl id, fun _ h => mem_lookupTask hnd h⟩

/-- Witness for the C5 theorem at a concrete table. -/
theorem get_task_status_spec_witness :
    get_task_status [(5, mkTaskInfo 5 1 2)] 5 = some (mkTaskInfo 5 1 2) :=
  (get_task_status_spec [(5, mkTaskInfo 5 1 2)] 5 (by simp)).2
    (mkTaskInfo 5 1 2) (by simp)

/-- C6 counterexample: the claim quantifies over every sequence of
callback invocations, but `_update_task_progress` enforces no
monotonicity — a backend that reports `(10, 11)` and then `(0, 100)`
drives the stored progress from 90 down to 20, so the trace of progress
values is not non-decreasing. -/
theorem driver_progress_not_monotone :
    ¬ List.Chain' (· ≤ ·)
      (taskProgressTrace (mkTaskInfo 0 0 0) 0
        (driver_ops [(10, 11), (0, 100)] (Except.ok "img"))) := by
  have hlist : taskProgressTrace (mkTaskInfo 0 0 0) 0
      (driver_ops [(10, 11), (0, 100)] (Except.ok "img")) =
      [0, 0, 10, 90, 20, 95, 100] := by
    rw [show driver_ops [(10, 11), (0, 100)] (Except.ok "img") =
          success_ops [(10, 11), (0, 100)] "img" from rfl,
        taskProgressTrace_success]
    norm_num [mkTaskInfo, rescale_progress]
  rw [hlist]
  intro hch
  simp [List.chain'_cons] at hch

/-- C6 amended: provided the backend reports a non-decreasing
`current_step` with a fixed `total_steps` (as the in-repo diffusion
backend does, passing the pipeline step index against a constant
`num_steps`), the driver's successive progress values — creation,
`IN_PROGRESS` at 0, 10, the rescaled callback values, then 95 and 100 on
success, or the last value on failure — are non-decreasing. -/
theorem driver_progress_monotone (ti : TaskInfo) (t : Int) (steps : List Nat)
    (n : Nat) (outcome : Except String String)
    (h0 : ti.progress = 0)
    (hmono : List.Chain' (· ≤ ·) steps) :
    List.Chain' (· ≤ ·)
      (taskProgressTrace ti t (driver_ops (steps.map fun st => (st, n)) outcome)) := by
  have hvals_eq :
      ((steps.map fun st => (st, n)).map fun c => rescale_progress c.1 c.2) =
        steps.map fun st => rescale_progress st n := by
    rw [List.map_map]
    rfl
  have hchain : List.Chain' (· ≤ ·)
      ((steps.map fun st => (st, n)).map fun c => rescale_progress c.1 c.2) := by
    rw [hvals_eq, List.chain'_map]
    exact hmono.imp fun a b hab => rescale_progress_mono n hab
  have h20 : ∀ v ∈ (steps.map fun st => (st, n)).map fun c => rescale_progress c.1 c.2,
      20 ≤ v := by
    rw [hvals_eq]
    intro v hv
    obtain ⟨st, -, rfl⟩ := List.mem_map.mp hv
    exact rescale_progress_ge_20 _ _
  have h90 : ∀ v ∈ (steps.map fun st => (st, n)).map fun c => rescale_progress c.1 c.2,
      v ≤ 90 := by
    rw [hvals_eq]
    intro v hv
    obtain ⟨st, -, rfl⟩ := List.mem_map.mp hv
    exact rescale_progress_le_90 _ _
  cases outcome with
  | ok r =>
    rw [show driver_ops (steps.map fun st => (st, n)) (Except.ok r) =
          success_ops (steps.map fun st => (st, n)) r from rfl,
        taskProgressTrace_success, h0]
    refine List.chain'_cons'.mpr ⟨?_, List.chain'_cons'.mpr ⟨?_,
      List.chain'_cons'.mpr ⟨?_, ?_⟩⟩⟩
    · intro x hx
      simp at hx
      omega
    · intro x hx
      simp at hx
      omega
    · intro x hx
      rcases hcase : (steps.map fun st => (st, n)).map fun c => rescale_progress c.1 c.2
        with _ | ⟨v, vs⟩
      · rw [hcase] at hx
        simp at hx
        omega
      · rw [hcase] at hx
        simp at hx
        have := h20 v (by rw [hcase]; exact List.mem_cons_self _ _)
        omega
    · refine List.chain'_append.mpr ⟨hchain, by norm_num [List.chain'_cons], ?_⟩
      intro x hx y hy
      simp only [List.head?_cons, Option.mem_def, Option.some.injEq] at hy
      have hxv : x ∈ (steps.map fun st => (st, n)).map fun c => rescale_progress c.1 c.2 :=
        List.mem_of_getLast?_eq_some hx
      have := h90 x hxv
      omega
  | error e =>
    rw [show driver_ops (steps.map fun st => (st, n)) (Except.error e) =
          failure_ops (steps.map fun st => (st, n)) e from rfl,
        taskProgressTrace_failure, h0]
    refine List.chain'_cons'.mpr ⟨?_, List.chain'_cons'.mpr ⟨?_,
      List.chain'_cons'.mpr ⟨?_, ?_⟩⟩⟩
    · intro x hx
      simp at hx
      omega
    · intro x hx
      simp at hx
      omega
    · intro x hx
      rcases hcase : (steps.map fun st => (st, n)).map fun c => rescale_progress c.1 c.2
        with _ | ⟨v, vs⟩
      · rw [hcase] at hx
        simp at hx
        omega
      · rw [hcase] at hx
        simp at hx
        have := h20 v (by rw [hcase]; exact List.mem_cons_self _ _)
        omega
    · refine List.chain'_append.mpr ⟨hchain, List.chain'_singleton _, ?_⟩
      intro x hx y hy
      simp only [List.head?_cons, Option.mem_def, Option.some.injEq] at hy
      have hx' : ((steps.map fun st => (st, n)).map fun c =>
          rescale_progress c.1 c.2).getLast? = some x := hx
      have hlast : ((steps.map fun st => (st, n)).map fun c =>
          rescale_progress c.1 c.2).getLastD 10 = x := by
        rw [List.getLastD_eq_getLast?, hx']
        rfl
      omega

/-- Witness for the amended C6 theorem at a concrete monotone backend. -/
theorem driver_progress_monotone_witness :
    List.Chain' (· ≤ ·)
      (taskProgressTrace (mkTaskInfo 0 0 0) 0
        (driver_ops ([0, 1, 2].map fun st => (st, 3)) (Except.ok "img"))) :=
  driver_progress_monotone (mkTaskInfo 0 0 0) 0 [0, 1, 2] 3 (Except.ok "img")
    rfl (by simp [List.chain'_cons])

/-- C7: for every callback invocation, the value the driver's
`progress_callback` writes stays in the band reserved between the
pre-processing and post-processing bookkeeping bands — at least 10 (in
fact at least 20) and at most 90 — and for a fixed `total_steps` it is
monotone in `current_step`. -/
theorem progress_callback_band (current_step total_steps : Nat) :
    10 ≤ rescale_progress current_step total_steps ∧
    rescale_progress current_step total_steps ≤ 90 ∧
    ∀ cs' : Nat, current_step ≤ cs' →
      rescale_progress current_step total_steps ≤ rescale_progress cs' total_steps :=
  ⟨le_trans (by norm_num) (rescale_progress_ge_20 current_step total_steps),
   rescale_progress_le_90 current_step total_steps,
   fun _ h => rescale_progress_mono total_steps h⟩

/-- Witness for the C7 theorem at concrete step counts. -/
theorem progress_callback_band_witness :
    rescale_progress 3 50 ≤ rescale_progress 7 50 :=
  (progress_callback_band 3 50).2.2 7 (by decide)

/-- C8: `_fail_task` touches only `status`, `error` and `completed_at`;
every record keeps its `progress` (neither cleared nor forced), `task_id`,
`request`, `created_at`, `started_at` and `result`, and records under a
different id are entirely unchanged. -/
theorem fail_task_frame (tbl : Table) (id : Nat) (msg : String) (t : Int)
    (i : Nat) (ti : TaskInfo) (hmem : (i, ti) ∈ tbl) :
    ∃ ti', (i, ti') ∈ fail_task tbl id msg t ∧
      ti'.progress = ti.progress ∧
      ti'.task_id = ti.task_id ∧
      ti'.request = ti.request ∧
      ti'.created_at = ti.created_at ∧
      ti'.started_at = ti.started_at ∧
      ti'.result = ti.result ∧
      (i = id → ti'.status = TaskStatus.failed ∧ ti'.error = some msg ∧
        ti'.completed_at = some t) ∧
      (¬ i = id → ti' = ti) := by
  by_cases h : i = id
  · refine ⟨{ ti with status := .failed, error := some msg, completed_at := some t },
      ?_, rfl, rfl, rfl, rfl, rfl, rfl, fun _ => ⟨rfl, rfl, rfl⟩, fun hn => absurd h hn⟩
    have hm := @updateTask_mem_of_mem tbl id
      (fun ti0 => { ti0 with status := TaskStatus.failed, error := some msg, completed_at := some t }) i ti hmem
    rw [if_pos h] at hm
    exact hm
  · refine ⟨ti, ?_, rfl, rfl, rfl, rfl, rfl, rfl, fun hc => absurd hc h, fun _ => rfl⟩
    have hm := @updateTask_mem_of_mem tbl id
      (fun ti0 => { ti0 with status := TaskStatus.failed, error := some msg, completed_at := some t }) i ti hmem
    rw [if_neg h] at hm
    exact hm

/-- Witness for the C8 theorem: failing job 0 leaves job 1 intact. -/
theorem fail_task_frame_witness :
    ∃ ti', (1, ti') ∈ fail_task [(0, mkTaskInfo 0 0 0), (1, mkTaskInfo 1 0 0)] 0 "e" 9 ∧
      ti'.progress = (mkTaskInfo 1 0 0).progress ∧
      ti'.task_id = (mkTaskInfo 1 0 0).task_id ∧
      ti'.request = (mkTaskInfo 1 0 0).request ∧
      ti'.created_at = (mkTaskInfo 1 0 0).created_at ∧
      ti'.started_at = (mkTaskInfo 1 0 0).started_at ∧
      ti'.result = (mkTaskInfo 1 0 0).result ∧
      ((1 : Nat) = 0 → ti'.status = TaskStatus.failed ∧ ti'.error = some "e" ∧
        ti'.completed_at = some 9) ∧
      (¬ (1 : Nat) = 0 → ti' = mkTaskInfo 1 0 0) :=
  fail_task_frame [(0, mkTaskInfo 0 0 0), (1, mkTaskInfo 1 0 0)] 0 "e" 9 1
    (mkTaskInfo 1 0 0) (by simp)

/-- C9: in every reachable state, at most 2 drivers execute concurrently
(the `ThreadPoolExecutor(max_workers=2)` bound, encoded in the dispatch
rule) and hence at most 2 records report `IN_PROGRESS`; submissions beyond
capacity sit in the queue. -/
theorem worker_pool_capacity (s : Sys) (hreach : Reachable s) :
    s.running.length ≤ 2 ∧
    (s.table.filter fun p => decide (p.2.status = TaskStatus.inProgress)).length ≤ 2 := by
  have hI := inv_reachable hreach
  exact ⟨hI.runningCap, le_trans (count_inProgress_le_running s hI) hI.runningCap⟩

/-- Witness for the C9 theorem on a concrete reachable state. -/
theorem worker_pool_capacity_witness :
    (sampleSys.table.filter fun p =>
      decide (p.2.status = TaskStatus.inProgress)).length ≤ 2 :=
  (worker_pool_capacity sampleSys sampleSys_reachable).2

/-- C10: `get_task_count` returns exactly one entry per `TaskStatus` value
plus a `total` entry; each per-state entry counts the records in that
state, the four per-state counts sum to `total`, and `total` is the table
size.  The function reads the table without modifying it. -/
theorem get_task_count_spec (tbl : Table) :
    (get_task_count tbl).map Prod.fst =
      ["PENDING", "IN_PROGRESS", "COMPLETED", "FAILED", "total"] ∧
    (∀ st : TaskStatus, (st.value, count_status tbl st) ∈ get_task_count tbl) ∧
    count_status tbl .pending + count_status tbl .inProgress +
      count_status tbl .completed + count_status tbl .failed = tbl.length ∧
    ("total", tbl.length) ∈ get_task_count tbl := by
  refine ⟨rfl, ?_, count_status_sum tbl, by simp [get_task_count]⟩
  intro st
  cases st <;> simp [get_task_count, TaskStatus.value]

end RapidGen
